import Mathlib

/-!
Verification development for two lint rules of this repository:

* `valid-rule-meta` (packages/eslint-plugin-internal/src/rules/valid-rule-meta.ts):
  an abstract interpretation over object-literal / call-expression shapes that
  checks a rule's declared `meta.fixable` / `meta.hasSuggestions` capabilities
  against its `context.report(...)` call sites.
* `no-restricted-imports`: the `verify` routine that matches an import/export
  declaration's source string against restricted paths and pattern groups.

The embedding models the AST shapes the rules discriminate on, the scope
resolver (`ASTUtils.findVariable`) as an environment from identifier names to
variables, and each visitor as a pure Lean function.  The two generator
functions (`flattenExpressions`, `iterateProperties`) are modelled with an
explicit fuel parameter; `none` marks fuel exhaustion (divergence of the
source generator), `some` a completed run.
-/

/-- A JavaScript literal value as carried by a `Literal` AST node
(`value: string | number | bigint | boolean | RegExp | null | undefined`). -/
inductive Lit where
  | nullL
  | str (s : String)
  | bool (b : Bool)
  | num (n : Int)
  | otherLit
deriving DecidableEq

/-- A parameter of a function expression: either an `Identifier` pattern
(carrying the node identity of the identifier, used by the meta rule to
recognise the `create` context parameter) or any other pattern shape. -/
inductive Param where
  | identP (nameId : Nat)
  | otherP
deriving DecidableEq

mutual
/-- The expression shapes `valid-rule-meta` discriminates on: `Identifier`,
`ConditionalExpression`, `ObjectExpression`, `Literal`,
function expressions (`FunctionExpression` / `ArrowFunctionExpression`, which
the rule treats identically), and every other node shape collapsed to
`other`. -/
inductive Expr where
  | ident (name : String)
  | cond (c : Expr) (t : Expr) (e : Expr)
  | obj (elems : List Elem)
  | lit (v : Lit)
  | func (params : List Param)
  | other

/-- An `ObjectLiteralElement`: a `Property` (with the node identity of its
key, its static name per `ASTUtils.getPropertyName` — `none` when the name is
not statically known — and its value), a `MethodDefinition`, or a
`SpreadElement` with its argument. -/
inductive Elem where
  | property (keyId : Nat) (name : Option String) (value : Expr)
  | methodDef (keyId : Nat) (name : Option String) (value : Expr)
  | spreadEl (arg : Expr)
end

/-- One definition of a scope variable (`variable.defs[i]`): its definition
type tag, the `kind` of the parent variable declaration, the declarator's
initializer (`def.node.init`), and the node identity of the defining
identifier (`def.name`). -/
structure VarDef where
  defType : String
  parentKind : String
  init : Option Expr
  nameId : Nat

/-- A scope variable as returned by `ASTUtils.findVariable`. -/
structure ScopeVariable where
  defs : List VarDef

/-- The scope resolver: `ASTUtils.findVariable(context.getScope(), name)`,
`none` when no variable is found. -/
def Env : Type := String → Option ScopeVariable

/-- The constant-binding resolution condition of `flattenExpressions`
(valid-rule-meta.ts lines 78–88): the variable exists, has exactly one
definition, that definition is a `Variable` definition whose parent
declaration has kind `const`, and the declarator has an initializer; the
initializer is returned, otherwise `none`. -/
def resolveConst (env : Env) (n : String) : Option Expr :=
  match env n with
  | none => none
  | some v =>
    match v.defs with
    | [d] =>
      if d.defType = "Variable" ∧ d.parentKind = "const" then d.init else none
    | _ => none

/-- `flattenExpressions` (valid-rule-meta.ts lines 74–96) with explicit fuel:
an identifier that resolves through `resolveConst` is replaced by the
flattening of its initializer; a conditional expression yields the
concatenation of the flattenings of its consequent and alternate; every other
node yields itself.  `none` models divergence of the source generator. -/
def flattenE (env : Env) : Nat → Expr → Option (List Expr)
  | 0, _ => none
  | f + 1, Expr.ident n =>
    match resolveConst env n with
    | some init => flattenE env f init
    | none => some [Expr.ident n]
  | f + 1, Expr.cond _ t e =>
    match flattenE env f t, flattenE env f e with
    | some l, some r => some (l ++ r)
    | _, _ => none
  | _ + 1, e => some [e]

mutual
/-- `iterateProperties` (valid-rule-meta.ts lines 48–73) with explicit fuel:
`Property` / `MethodDefinition` elements are yielded directly; a
`SpreadElement`'s argument is flattened, each resulting `ObjectExpression`
shape is walked recursively with its properties yielded, and the original
spread element is yielded once afterwards iff some shape was not an object
expression (`hasUnknown`). -/
def iterProps (env : Env) : Nat → List Elem → Option (List Elem)
  | 0, _ => none
  | _ + 1, [] => some []
  | f + 1, Elem.spreadEl arg :: rest =>
    match flattenE env (f + 1) arg with
    | none => none
    | some exprs =>
      match iterSpread env f exprs, iterProps env f rest with
      | some (l, u), some r =>
        some (l ++ (if u then [Elem.spreadEl arg] else []) ++ r)
      | _, _ => none
  | f + 1, p :: rest =>
    match iterProps env f rest with
    | some r => some (p :: r)
    | none => none

/-- The loop body of `iterateProperties`' spread case: walk the flattened
expressions of a spread argument, collecting the recursively-walked
properties of each object-expression shape and the `hasUnknown` flag (set by
any non-object-expression shape). -/
def iterSpread (env : Env) : Nat → List Expr → Option (List Elem × Bool)
  | 0, _ => none
  | _ + 1, [] => some ([], false)
  | f + 1, Expr.obj elems :: rest =>
    match iterProps env f elems, iterSpread env f rest with
    | some l, some (r, u) => some (l ++ r, u)
    | _, _ => none
  | f + 1, _ :: rest =>
    match iterSpread env f rest with
    | some (r, _) => some (r, true)
    | none => none
end

/-- The aggregated report-site findings of a detected rule object
(`ruleObject.report`): the key nodes of `suggest` / `fix` descriptor
properties, whether any report call could not be statically shaped, and
whether any matching report call was found at all. -/
structure ReportFindings where
  suggestNodes : List Nat
  fixNodes : List Nat
  hasUnknown : Bool
  found : Bool

/-- The per-file rule object model (`ruleObject`): the elements of the `meta`
object expression, the node identity of the `create` function's first
(context) parameter, and the mutable report findings. -/
structure RuleObject where
  metaElems : List Elem
  contextId : Nat
  report : ReportFindings

/-- The diagnostic message identifiers of `valid-rule-meta`. -/
inductive MessageId where
  | shouldBeFixable
  | shouldNotBeFixable
  | shouldBeSuggestable
  | shouldNotBeSuggestable
deriving DecidableEq

/-- The node a diagnostic is anchored on: either a whole `Property` node
(identified by its key's node identity) or a property's key node. -/
inductive Anchor where
  | propNode (keyId : Nat)
  | keyNode (keyId : Nat)
deriving DecidableEq

/-- One reported diagnostic of `valid-rule-meta`. -/
structure Diagnostic where
  anchor : Anchor
  messageId : MessageId
deriving DecidableEq

/-- The property scan of the `ObjectExpression` visitor (valid-rule-meta.ts
lines 112–124): the last `Property` named `meta` and the last named `create`
(`getPropertyName` comparison; non-`Property` elements are skipped),
returning their value expressions. -/
def scanRuleProps (elems : List Elem) : Option Expr × Option Expr :=
  elems.foldl
    (fun acc el =>
      match el with
      | Elem.property _ (some n) v =>
        if n = "meta" then (some v, acc.2)
        else if n = "create" then (acc.1, some v)
        else acc
      | _ => acc)
    (none, none)

/-- The rule-object detection of the `ObjectExpression` visitor
(valid-rule-meta.ts lines 112–148): both `meta` and `create` properties must
exist, `meta`'s value must be an object expression, `create`'s value a
function expression with at least one parameter whose first parameter is an
identifier; the fresh model carries empty findings. -/
def matchRule (elems : List Elem) : Option RuleObject :=
  match scanRuleProps elems with
  | (some (Expr.obj metaElems), some (Expr.func params)) =>
    match params with
    | Param.identP nameId :: _ =>
      some ⟨metaElems, nameId, ⟨[], [], false, false⟩⟩
    | _ => none
  | _ => none

/-- The `ObjectExpression` visitor (valid-rule-meta.ts lines 108–149): if a
rule object was already detected the visit returns immediately, otherwise the
node is matched against the `{meta, create}` shape. -/
def visitObject (ro : Option RuleObject) (elems : List Elem) : Option RuleObject :=
  match ro with
  | some r => some r
  | none => matchRule elems

/-- The descriptor-property loop body of the `CallExpression` visitor
(valid-rule-meta.ts lines 177–188): a non-`Property` element sets
`hasUnknown`; a `Property` named `suggest` / `fix` appends its key node to
the matching bucket. -/
def collectProp (rep : ReportFindings) (el : Elem) : ReportFindings :=
  match el with
  | Elem.property kid (some n) _ =>
    if n = "suggest" then { rep with suggestNodes := rep.suggestNodes ++ [kid] }
    else if n = "fix" then { rep with fixNodes := rep.fixNodes ++ [kid] }
    else rep
  | Elem.property _ none _ => rep
  | _ => { rep with hasUnknown := true }

/-- The callee of a call expression, as far as the `CallExpression` visitor
discriminates it: a member expression whose object and property are both
identifiers, or any other shape. -/
inductive Callee where
  | memberII (objName : String) (propName : String)
  | otherCallee

/-- A call expression: its callee and argument expressions. -/
structure CallExpr where
  callee : Callee
  args : List Expr

/-- The `CallExpression` visitor (valid-rule-meta.ts lines 150–189): the call
must be `x.report(arg)` with exactly one argument and `x` resolving to a
variable one of whose definitions is the detected `create` context parameter;
then `found` is set, a non-object-expression argument sets `hasUnknown`, and
an object-expression argument's iterated properties are collected.  The outer
`Option` marks fuel exhaustion of `iterateProperties`. -/
def visitCall (env : Env) (fuel : Nat) (ro : Option RuleObject) (call : CallExpr) :
    Option (Option RuleObject) :=
  match ro with
  | none => some none
  | some r =>
    match call.callee with
    | Callee.otherCallee => some (some r)
    | Callee.memberII objName propName =>
      if propName ≠ "report" then some (some r)
      else if call.args.length ≠ 1 then some (some r)
      else
        match env objName with
        | none => some (some r)
        | some v =>
          if ¬ v.defs.any (fun d => d.nameId = r.contextId) then some (some r)
          else
            let r1 := { r with report := { r.report with found := true } }
            match call.args with
            | [Expr.obj elems] =>
              match iterProps env fuel elems with
              | none => none
              | some props =>
                some (some { r1 with report := props.foldl collectProp r1.report })
            | _ =>
              some (some { r1 with report := { r1.report with hasUnknown := true } })

/-- The meta-property scan of `Program:exit` (valid-rule-meta.ts lines
198–215): the last iterated `Property` named `fixable` and the last named
`hasSuggestions` (key node identity and value), and whether any unresolved
`SpreadElement` was iterated. -/
structure MetaScan where
  fixableProp : Option (Nat × Expr)
  hasSuggestionsProp : Option (Nat × Expr)
  hasSpread : Bool

/-- Fold the iterated logical properties of `meta` into a `MetaScan`
(valid-rule-meta.ts lines 201–215). -/
def scanMeta (props : List Elem) : MetaScan :=
  props.foldl
    (fun scan el =>
      match el with
      | Elem.spreadEl _ => { scan with hasSpread := true }
      | Elem.methodDef _ _ _ => scan
      | Elem.property kid (some n) v =>
        if n = "fixable" then { scan with fixableProp := some (kid, v) }
        else if n = "hasSuggestions" then { scan with hasSuggestionsProp := some (kid, v) }
        else scan
      | Elem.property _ none _ => scan)
    ⟨none, none, false⟩

/-- `fixableProp.value` is the literal `null` or the identifier `undefined`
(valid-rule-meta.ts lines 223–228). -/
def isNullOrUndefinedE : Expr → Bool
  | Expr.lit Lit.nullL => true
  | Expr.ident n => n = "undefined"
  | _ => false

/-- `fixableProp.value` is a `Literal` whose value is a string
(valid-rule-meta.ts lines 234–237). -/
def isStringLit : Expr → Bool
  | Expr.lit (Lit.str _) => true
  | _ => false

/-- `hasSuggestionsProp.value` is a `Literal` whose value is not `true`
(valid-rule-meta.ts lines 250–253). -/
def litValueNotTrue : Expr → Bool
  | Expr.lit (Lit.bool true) => false
  | Expr.lit _ => true
  | _ => false

/-- `hasSuggestionsProp.value` is a `Literal` whose value is `true`
(valid-rule-meta.ts lines 259–261). -/
def litValueIsTrue : Expr → Bool
  | Expr.lit (Lit.bool true) => true
  | _ => false

/-- The `fix`-direction checks of `Program:exit` (valid-rule-meta.ts lines
217–243): with observed `fix` sites, an unresolved spread suppresses all
reports, a missing or `null`/`undefined`-valued `fixable` yields one
`shouldBeFixable` per site (anchored at the site's `fix` key); with no
observed sites and no shape-unknown call, a string-literal `fixable` yields
one `shouldNotBeFixable` anchored on the `fixable` property. -/
def fixChecks (rep : ReportFindings) (scan : MetaScan) : List Diagnostic :=
  if rep.fixNodes.isEmpty then
    if ¬ rep.hasUnknown then
      match scan.fixableProp with
      | some (kid, v) =>
        if isStringLit v then [⟨Anchor.propNode kid, MessageId.shouldNotBeFixable⟩] else []
      | none => []
    else []
  else
    if scan.hasSpread then []
    else
      match scan.fixableProp with
      | none => rep.fixNodes.map (fun k => ⟨Anchor.keyNode k, MessageId.shouldBeFixable⟩)
      | some (_, v) =>
        if isNullOrUndefinedE v then
          rep.fixNodes.map (fun k => ⟨Anchor.keyNode k, MessageId.shouldBeFixable⟩)
        else []

/-- The `suggest`-direction checks of `Program:exit` (valid-rule-meta.ts
lines 244–268), mirroring `fixChecks` with `hasSuggestions` compared against
the literal `true`. -/
def suggestChecks (rep : ReportFindings) (scan : MetaScan) : List Diagnostic :=
  if rep.suggestNodes.isEmpty then
    if ¬ rep.hasUnknown then
      match scan.hasSuggestionsProp with
      | some (kid, v) =>
        if litValueIsTrue v then [⟨Anchor.propNode kid, MessageId.shouldNotBeSuggestable⟩] else []
      | none => []
    else []
  else
    if scan.hasSpread then []
    else
      match scan.hasSuggestionsProp with
      | none => rep.suggestNodes.map (fun k => ⟨Anchor.keyNode k, MessageId.shouldBeSuggestable⟩)
      | some (_, v) =>
        if litValueNotTrue v then
          rep.suggestNodes.map (fun k => ⟨Anchor.keyNode k, MessageId.shouldBeSuggestable⟩)
        else []

/-- The reconciliation of `Program:exit`: the `fix`-direction diagnostics
followed by the `suggest`-direction diagnostics. -/
def checkMeta (rep : ReportFindings) (scan : MetaScan) : List Diagnostic :=
  fixChecks rep scan ++ suggestChecks rep scan

/-- The `Program:exit` visitor (valid-rule-meta.ts lines 190–269): nothing is
reported without a detected rule object or when no matching report call was
found; otherwise the `meta` elements are iterated (fuel exhaustion surfaces
as `none`) and checked against the findings. -/
def programExit (env : Env) (fuel : Nat) (ro : Option RuleObject) :
    Option (List Diagnostic) :=
  match ro with
  | none => some []
  | some r =>
    if r.report.found = false then some []
    else
      match iterProps env fuel r.metaElems with
      | none => none
      | some props => some (checkMeta r.report (scanMeta props))

/-- The `importKind` of a restriction option: `'type' | 'value' | 'all'`. -/
inductive IKind where
  | typeK
  | valueK
  | allK
deriving DecidableEq

/-- The `importKind` / `exportKind` of a declaration: `'type' | 'value'`. -/
inductive DKind where
  | typeD
  | valueD
deriving DecidableEq

/-- Inject a declaration kind into the option-kind space for the string
comparison `restricted.importKind === importKind`. -/
def injK : DKind → IKind
  | DKind.typeD => IKind.typeK
  | DKind.valueD => IKind.valueK

/-- A parsed `paths` restriction (`ParsedPathOption`): the restricted module
name, its import kind, the optional restricted import-name set (`null` when
absent or empty), and the optional custom message. -/
structure ParsedPathOption where
  name : String
  importKind : IKind
  importNames : Option (List String)
  customMessage : Option String

/-- A parsed `patterns` restriction group (`ParsedPatternGroup`): the
`ignore` matcher is modelled as an opaque predicate on the import source. -/
structure ParsedPatternGroup where
  matcher : String → Bool
  importKind : IKind
  customMessage : Option String

/-- The base message identifiers of `no-restricted-imports`. -/
inductive BaseMsg where
  | path
  | patterns
  | everything
  | importName
deriving DecidableEq

/-- One diagnostic reported by `no-restricted-imports`' `report` helper: the
base message id, whether the `WithCustomMessage` variant was selected, the
computed `importKindPhrase`, the explicit `loc` when one was passed, and the
message data. -/
structure RDiag where
  baseMessageId : BaseMsg
  withCustomMessage : Bool
  importKindPhrase : String
  loc : Option Nat
  importSource : String
deriving DecidableEq

/-- The `importKindPhrase` computation of the `report` helper (part_000
lines 264–269). -/
def importKindPhrase : IKind → String
  | IKind.typeK => "type-only import"
  | IKind.valueK => "import"
  | IKind.allK => "type-only import and import"

/-- The `report` helper (part_000 lines 241–294): with `locs` one diagnostic
per location, without `locs` a single diagnostic; a custom message selects
the `WithCustomMessage` message variant. -/
def mkReports (base : BaseMsg) (kind : IKind) (customMessage : Option String)
    (locs : Option (List Nat)) (importSource : String) : List RDiag :=
  let phrase := importKindPhrase kind
  let wcm := customMessage.isSome
  match locs with
  | some ls => ls.map (fun l => ⟨base, wcm, phrase, some l, importSource⟩)
  | none => [⟨base, wcm, phrase, none, importSource⟩]

/-- `isStringLiteral` (part_000 lines 107–115): the node exists, is a
`Literal`, and its value is a string. -/
def isStringLiteralE : Option Expr → Bool
  | some (Expr.lit (Lit.str _)) => true
  | _ => false

/-- The import-name grouping of `verify` (part_000 lines 324–332): a map
from name to the list of its locations, in first-occurrence order. -/
def groupByName (xs : List (String × Nat)) : List (String × List Nat) :=
  xs.foldl
    (fun acc p =>
      if acc.any (fun q => q.1 = p.1) then
        acc.map (fun q => if q.1 = p.1 then (q.1, q.2 ++ [p.2]) else q)
      else acc ++ [(p.1, [p.2])])
    []

/-- A JavaScript whitespace character, as far as this rule's inputs use
them. -/
def isWS (c : Char) : Bool := c = ' ' ∨ c = '\t' ∨ c = '\n' ∨ c = '\r'

/-- `String.prototype.trim()` on the import source (part_000 line 310),
modelled over the character list so that it evaluates inside the kernel. -/
def trimJS (s : String) : String :=
  ⟨((s.data.dropWhile isWS).reverse.dropWhile isWS).reverse⟩

/-- `verify` (part_000 lines 296–390): a non-string-literal source skips the
declaration entirely; otherwise the trimmed source is checked against the
first matching restricted path (reporting `everything` / `importName` per
grouped name when an import-name set is restricted, else a single `path`
diagnostic) and then against every matching pattern group. -/
def verify (paths : List ParsedPathOption) (groups : List ParsedPatternGroup)
    (source : Option Expr) (kind : DKind) (importNames : List (String × Nat)) :
    List RDiag :=
  match source with
  | some (Expr.lit (Lit.str s)) =>
    let importSource := trimJS s
    let pathDiags :=
      match paths.find? (fun p =>
          p.name = importSource ∧
          (p.importKind = IKind.allK ∨ p.importKind = injK kind)) with
      | none => []
      | some p =>
        match p.importNames with
        | some restrictedNames =>
          (groupByName importNames).flatMap (fun nl =>
            if nl.1 = "*" then
              mkReports BaseMsg.everything p.importKind p.customMessage (some nl.2) importSource
            else if nl.1 ∈ restrictedNames then
              mkReports BaseMsg.importName p.importKind p.customMessage (some nl.2) importSource
            else [])
        | none => mkReports BaseMsg.path p.importKind p.customMessage none importSource
    let patternDiags :=
      groups.flatMap (fun g =>
        if g.matcher importSource ∧
            (g.importKind = IKind.allK ∨ g.importKind = injK kind) then
          mkReports BaseMsg.patterns g.importKind g.customMessage none importSource
        else [])
    pathDiags ++ patternDiags
  | _ => []

mutual
/-- The identifiers an expression can feed into constant-binding resolution:
the identifier itself, both branches of a conditional, and — through the
object-shape walker — the spread arguments of an object expression. -/
def identsOf : Expr → List String
  | Expr.ident n => [n]
  | Expr.cond _ t e => identsOf t ++ identsOf e
  | Expr.obj elems => identsOfElems elems
  | Expr.lit _ => []
  | Expr.func _ => []
  | Expr.other => []

/-- The resolution-relevant identifiers of an object's elements: only spread
arguments are walked (property values are never flattened by the rule). -/
def identsOfElems : List Elem → List String
  | [] => []
  | Elem.spreadEl a :: rest => identsOf a ++ identsOfElems rest
  | _ :: rest => identsOfElems rest
end

/-- An upper bound for a measure over a list of identifiers: the maximum of
`μ m + 1` over the list (zero for the empty list). -/
def listBound (μ : String → Nat) (l : List String) : Nat :=
  (l.map (fun m => μ m + 1)).foldr max 0

/-- The empty scope: no identifier resolves. -/
def envEmpty : Env := fun _ => none

/-- The scope of the program `const a = a;`: the single `const` binding `a`
whose initializer is the identifier `a` itself — a legal, parseable program
whose constant-binding resolution chain revisits its own binding. -/
def envSelf : Env := fun n =>
  if n = "a" then
    some ⟨[⟨"Variable", "const", some (Expr.ident "a"), 0⟩]⟩
  else none

/-- The two expression shapes `flattenExpressions` treats specially. -/
def isIdentOrCond : Expr → Bool
  | Expr.ident _ => true
  | Expr.cond _ _ _ => true
  | _ => false

/-- An `ObjectExpression` shape, as discriminated by the spread loop of
`iterateProperties`. -/
def isObjE : Expr → Bool
  | Expr.obj _ => true
  | _ => false

/-- The constant-binding resolution relation of a scope is acyclic: some
measure on identifier names strictly decreases from a binding to every
identifier reachable (through conditional branches and object spread
arguments) in its resolved initializer. -/
def AcyclicRes (env : Env) (μ : String → Nat) : Prop :=
  ∀ n e, resolveConst env n = some e → ∀ m ∈ identsOf e, μ m < μ n

/-- The negative-direction message identifiers (declared capability without
observed evidence). -/
def isNegativeMsg : MessageId → Bool
  | MessageId.shouldNotBeFixable => true
  | MessageId.shouldNotBeSuggestable => true
  | _ => false

/-- The positive-direction message identifiers (observed evidence without
declared capability). -/
def isPositiveMsg : MessageId → Bool
  | MessageId.shouldBeFixable => true
  | MessageId.shouldBeSuggestable => true
  | _ => false

/-- C9: for every import/export declaration whose `source` is not a string
literal, `verify` skips the declaration entirely — no restricted-path check,
no pattern-group check (even an always-matching matcher fires nothing), and
no diagnostic is reported. -/
theorem c9_nonstring_source_skips
    (paths : List ParsedPathOption) (groups : List ParsedPatternGroup)
    (source : Option Expr) (kind : DKind) (importNames : List (String × Nat))
    (h : isStringLiteralE source = false) :
    verify paths groups source kind importNames = [] := by
  unfold verify
  split
  · simp [isStringLiteralE] at h
  · rfl

/-- Witness for C9 at a concrete non-literal source, with a restricted path
and an always-matching pattern group that would otherwise fire. -/
theorem c9_witness :
    isStringLiteralE (some (Expr.ident "dyn")) = false ∧
      verify [⟨"m", IKind.allK, none, none⟩] [⟨fun _ => true, IKind.allK, none⟩]
        (some (Expr.ident "dyn")) DKind.valueD [("default", 3)] = [] :=
  ⟨rfl, c9_nonstring_source_skips _ _ _ _ _ rfl⟩

/-- C10: a call expression whose argument count is not exactly one is ignored
completely by the `CallExpression` visitor — the rule object model (its
`found`, `hasUnknown`, and fix/suggest buckets) is unchanged — and a file
whose findings never set `found` yields no diagnostics at `Program:exit`. -/
theorem c10_wrong_arity_report_ignored
    (env : Env) (fuel : Nat) (ro : RuleObject) (call : CallExpr)
    (h : call.args.length ≠ 1) :
    visitCall env fuel (some ro) call = some (some ro) ∧
      (ro.report.found = false → programExit env fuel (some ro) = some []) := by
  constructor
  · unfold visitCall
    match hc : call.callee with
    | Callee.otherCallee => rfl
    | Callee.memberII objName propName =>
      by_cases hp : propName = "report"
      · simp [hp, h]
      · simp [hp]
  · intro hf
    simp [programExit, hf]

/-- Witness for C10: a two-argument `x.report(a, b)` call, with `x` resolving
to the context parameter, leaves the model untouched, and with `found` still
false the checker reports nothing. -/
theorem c10_witness :
    ([Expr.obj [], Expr.other] : List Expr).length ≠ 1 ∧
      visitCall (fun _ => some ⟨[⟨"Parameter", "none", none, 5⟩]⟩) 9
          (some ⟨[], 5, ⟨[], [], false, false⟩⟩)
          ⟨Callee.memberII "ctx" "report", [Expr.obj [], Expr.other]⟩
        = some (some ⟨[], 5, ⟨[], [], false, false⟩⟩) ∧
      programExit (fun _ => some ⟨[⟨"Parameter", "none", none, 5⟩]⟩) 9
          (some ⟨[], 5, ⟨[], [], false, false⟩⟩) = some [] := by
  have h := c10_wrong_arity_report_ignored
    (fun _ => some ⟨[⟨"Parameter", "none", none, 5⟩]⟩) 9
    ⟨[], 5, ⟨[], [], false, false⟩⟩
    ⟨Callee.memberII "ctx" "report", [Expr.obj [], Expr.other]⟩
    (by decide)
  exact ⟨by decide, h.1, h.2 rfl⟩

/-- Once a rule object exists, any further sequence of visited object
expressions leaves it unchanged. -/
theorem foldl_visitObject_some (r : RuleObject) (es : List (List Elem)) :
    List.foldl visitObject (some r) es = some r := by
  induction es with
  | nil => rfl
  | cons e rest ih => simpa [visitObject] using ih

/-- While no object expression has matched, the model stays absent. -/
theorem foldl_visitObject_none (es : List (List Elem))
    (h : ∀ n ∈ es, matchRule n = none) :
    List.foldl visitObject none es = none := by
  induction es with
  | nil => rfl
  | cons e rest ih =>
    have he : matchRule e = none := h e (List.mem_cons_self e rest)
    have hr : ∀ n ∈ rest, matchRule n = none := fun n hn => h n (List.mem_cons_of_mem e hn)
    simpa [visitObject, he] using ih hr

/-- C8: per file, at most one rule object model is ever created — visiting
any object expression with a model already present leaves it unchanged, and
over a whole traversal the first object expression matching the
`{meta, create}` shape determines the model, regardless of what follows. -/
theorem c8_single_rule_object :
    (∀ (r : RuleObject) (elems : List Elem), visitObject (some r) elems = some r) ∧
      ∀ (r : RuleObject) (pre post : List (List Elem)) (m : List Elem),
        (∀ n ∈ pre, matchRule n = none) → matchRule m = some r →
        List.foldl visitObject none (pre ++ m :: post) = some r := by
  constructor
  · intro r elems; rfl
  · intro r pre post m hpre hm
    rw [List.foldl_append]
    rw [foldl_visitObject_none pre hpre]
    show List.foldl visitObject (visitObject none m) post = some r
    rw [show visitObject none m = some r from by simpa [visitObject] using hm]
    exact foldl_visitObject_some r post

/-- Witness for C8: a non-matching object expression, then a matching
`{meta, create}` object, then another matching object — the model created by
the first match survives unchanged. -/
theorem c8_witness :
    (∀ n ∈ ([[]] : List (List Elem)), matchRule n = none) ∧
      matchRule
          [Elem.property 1 (some "meta") (Expr.obj []),
           Elem.property 2 (some "create") (Expr.func [Param.identP 5])]
        = some ⟨[], 5, ⟨[], [], false, false⟩⟩ ∧
      List.foldl visitObject none
          ([[]] ++
            [Elem.property 1 (some "meta") (Expr.obj []),
             Elem.property 2 (some "create") (Expr.func [Param.identP 5])] ::
            [[Elem.property 1 (some "meta") (Expr.obj []),
              Elem.property 2 (some "create") (Expr.func [Param.identP 9])]])
        = some ⟨[], 5, ⟨[], [], false, false⟩⟩ := by
  refine ⟨?_, rfl, ?_⟩
  · intro n hn
    simp at hn
    subst hn
    rfl
  · exact c8_single_rule_object.2 _ _ _ _
      (by intro n hn; simp at hn; subst hn; rfl) rfl

/-- With an unresolved spread in `meta` (and hence no `fixable` /
`hasSuggestions` property scanned), the reconciliation emits nothing for any
findings. -/
theorem checkMeta_spread_only (rep : ReportFindings) :
    checkMeta rep ⟨none, none, true⟩ = [] := by
  unfold checkMeta fixChecks suggestChecks
  cases h1 : rep.fixNodes.isEmpty <;> cases h2 : rep.suggestNodes.isEmpty <;>
    cases h3 : rep.hasUnknown <;> simp [h3]

/-- C5: when the rule object's `meta` is `{ ...ruleMeta }` with `ruleMeta`
not resolving to a constant binding, the checker emits no diagnostic at all,
for every combination of report-site findings. -/
theorem c5_spread_meta_suppresses
    (env : Env) (fuel : Nat) (cid : Nat) (rep : ReportFindings)
    (h : resolveConst env "ruleMeta" = none) :
    programExit env (fuel + 3)
        (some ⟨[Elem.spreadEl (Expr.ident "ruleMeta")], cid, rep⟩)
      = some [] := by
  unfold programExit
  cases hf : rep.found with
  | false => simp [hf]
  | true =>
    simp only [hf]
    have hflat : flattenE env (fuel + 3) (Expr.ident "ruleMeta")
        = some [Expr.ident "ruleMeta"] := by
      show flattenE env (fuel + 2 + 1) (Expr.ident "ruleMeta") = _
      rw [flattenE, h]
    have hiter : iterProps env (fuel + 3) [Elem.spreadEl (Expr.ident "ruleMeta")]
        = some [Elem.spreadEl (Expr.ident "ruleMeta")] := by
      show iterProps env (fuel + 2 + 1) _ = _
      rw [iterProps]
      rw [show fuel + 2 + 1 = fuel + 3 from rfl, hflat]
      show (match iterSpread env (fuel + 1 + 1) [Expr.ident "ruleMeta"],
              iterProps env (fuel + 2) [] with
            | some (l, u), some r =>
              some (l ++ (if u then [Elem.spreadEl (Expr.ident "ruleMeta")] else []) ++ r)
            | _, _ => none) = _
      rw [iterSpread]
      show (match (match iterSpread env (fuel + 0 + 1) [] with
                   | some (r, _) => some (r, true)
                   | none => none),
              iterProps env (fuel + 2) [] with
            | some (l, u), some r =>
              some (l ++ (if u then [Elem.spreadEl (Expr.ident "ruleMeta")] else []) ++ r)
            | _, _ => none) = _
      rw [iterSpread]
      show (match iterProps env (fuel + 1 + 1) [] with
            | some r => some (([] : List Elem) ++ [Elem.spreadEl (Expr.ident "ruleMeta")] ++ r)
            | none => none) = _
      rw [iterProps]
      · rfl
      · intro elems hh
        exact Expr.noConfusion hh
    rw [hiter]
    show some (checkMeta rep (scanMeta [Elem.spreadEl (Expr.ident "ruleMeta")])) = some []
    rw [show scanMeta [Elem.spreadEl (Expr.ident "ruleMeta")]
        = ⟨none, none, true⟩ from rfl]
    rw [checkMeta_spread_only]

/-- Witness for C5: an unresolvable `ruleMeta` spread with both a `fix` and a
`suggest` site observed yields no diagnostics. -/
theorem c5_witness :
    resolveConst envEmpty "ruleMeta" = none ∧
      programExit envEmpty 3
          (some ⟨[Elem.spreadEl (Expr.ident "ruleMeta")], 0, ⟨[4], [2], false, true⟩⟩)
        = some [] :=
  ⟨rfl, c5_spread_meta_suppresses envEmpty 0 0 ⟨[4], [2], false, true⟩ rfl⟩

/-- C6: `flattenExpressions` yields, for an identifier with a single-
declaration `const` binding with an initializer, the flattening of that
initializer (not the identifier); for a conditional expression, the
concatenation of both branches' flattenings; and for every other node shape
(including identifiers that do not so resolve), the node itself exactly
once. -/
theorem c6_flatten_cases (env : Env) (f : Nat) :
    (∀ n init nid,
        env n = some ⟨[⟨"Variable", "const", some init, nid⟩]⟩ →
        flattenE env (f + 1) (Expr.ident n) = flattenE env f init) ∧
      (∀ n, resolveConst env n = none →
        flattenE env (f + 1) (Expr.ident n) = some [Expr.ident n]) ∧
      (∀ c t e l r, flattenE env f t = some l → flattenE env f e = some r →
        flattenE env (f + 1) (Expr.cond c t e) = some (l ++ r)) ∧
      (∀ e, isIdentOrCond e = false → flattenE env (f + 1) e = some [e]) := by
  refine ⟨?_, ?_, ?_, ?_⟩
  · intro n init nid h
    have hr : resolveConst env n = some init := by
      unfold resolveConst
      rw [h]
      simp
    rw [flattenE, hr]
  · intro n h
    rw [flattenE, h]
  · intro c t e l r ht he
    rw [flattenE, ht, he]
  · intro e h
    match e, h with
    | Expr.obj elems, _ => rfl
    | Expr.lit v, _ => rfl
    | Expr.func ps, _ => rfl
    | Expr.other, _ => rfl

/-- Witness for C6 at the scope `const a = a;` and concrete nodes of each
shape class. -/
theorem c6_witness :
    (envSelf "a" = some ⟨[⟨"Variable", "const", some (Expr.ident "a"), 0⟩]⟩ ∧
        flattenE envSelf 3 (Expr.ident "a") = flattenE envSelf 2 (Expr.ident "a")) ∧
      (resolveConst envSelf "b" = none ∧
        flattenE envSelf 3 (Expr.ident "b") = some [Expr.ident "b"]) ∧
      flattenE envSelf 3 (Expr.cond Expr.other (Expr.ident "b") Expr.other)
        = some ([Expr.ident "b"] ++ [Expr.other]) ∧
      (isIdentOrCond (Expr.lit Lit.nullL) = false ∧
        flattenE envSelf 3 (Expr.lit Lit.nullL) = some [Expr.lit Lit.nullL]) := by
  refine ⟨⟨rfl, ?_⟩, ⟨rfl, ?_⟩, ?_, rfl, ?_⟩
  · exact (c6_flatten_cases envSelf 2).1 "a" (Expr.ident "a") 0 rfl
  · exact (c6_flatten_cases envSelf 2).2.1 "b" rfl
  · exact (c6_flatten_cases envSelf 2).2.2.1 Expr.other (Expr.ident "b") Expr.other
      [Expr.ident "b"] [Expr.other] rfl rfl
  · exact (c6_flatten_cases envSelf 2).2.2.2 (Expr.lit Lit.nullL) rfl


/-- Unfolding equation for the spread loop at a non-object head: the head
only sets the unknown flag. -/
theorem iterSpread_cons_nonobj (env : Env) (g : Nat) (e : Expr) (rest : List Expr)
    (he : isObjE e = false) :
    iterSpread env (g + 1) (e :: rest)
      = match iterSpread env g rest with
        | some (r, _) => some (r, true)
        | none => none := by
  cases e with
  | obj elems => simp [isObjE] at he
  | ident n =>
    rw [iterSpread]
    intro elems hh; exact Expr.noConfusion hh
  | cond a b c =>
    rw [iterSpread]
    intro elems hh; exact Expr.noConfusion hh
  | lit v =>
    rw [iterSpread]
    intro elems hh; exact Expr.noConfusion hh
  | func ps =>
    rw [iterSpread]
    intro elems hh; exact Expr.noConfusion hh
  | other =>
    rw [iterSpread]
    intro elems hh; exact Expr.noConfusion hh

/-- The `hasUnknown` flag of the spread loop is set exactly when some
flattened shape is not an object expression. -/
theorem iterSpread_unknown_iff (env : Env) :
    ∀ (exprs : List Expr) (g : Nat) (l : List Elem) (u : Bool),
      iterSpread env g exprs = some (l, u) →
      (u = true ↔ ∃ e ∈ exprs, isObjE e = false) := by
  intro exprs
  induction exprs with
  | nil =>
    intro g l u h
    match g, h with
    | g' + 1, h =>
      rw [iterSpread] at h
      simp at h
      simp [h.2]
  | cons e rest ih =>
    intro g l u h
    match g, h with
    | g' + 1, h =>
      by_cases ho : isObjE e = true
      · match e, ho with
        | Expr.obj elems, _ =>
          rw [iterSpread] at h
          match h1 : iterProps env g' elems, h2 : iterSpread env g' rest with
          | some l1, some (r, u') =>
            rw [h1, h2] at h
            simp at h
            have hiff := ih g' r u' h2
            rw [← h.2, hiff]
            constructor
            · rintro ⟨x, hx, hpx⟩
              exact ⟨x, List.mem_cons_of_mem _ hx, hpx⟩
            · rintro ⟨x, hx, hpx⟩
              rcases List.mem_cons.mp hx with hx | hx
              · subst hx; simp [isObjE] at hpx
              · exact ⟨x, hx, hpx⟩
          | some l1, none => rw [h1, h2] at h; simp at h
          | none, _ => rw [h1] at h; simp at h
      · have ho' : isObjE e = false := by
          cases hoe : isObjE e
          · rfl
          · exact absurd hoe ho
        rw [iterSpread_cons_nonobj env g' e rest ho'] at h
        match h2 : iterSpread env g' rest with
        | some (r, u') =>
          rw [h2] at h
          simp at h
          rw [← h.2]
          exact ⟨fun _ => ⟨e, List.mem_cons_self e rest, ho'⟩, fun _ => rfl⟩
        | none => rw [h2] at h; simp at h

/-- C7: the object-shape walker yields ordinary property / method elements
directly; for a spread element it yields, in order, the recursively-walked
properties of every object-expression shape of the argument's flattening,
then the original spread element exactly once iff some shape was not an
object expression; and the unknown flag of the spread loop holds exactly
when a non-object shape exists among the flattening. -/
theorem c7_iterate_cases (env : Env) (f : Nat) :
    (∀ kid nm v rest r, iterProps env f rest = some r →
        iterProps env (f + 1) (Elem.property kid nm v :: rest)
          = some (Elem.property kid nm v :: r)) ∧
      (∀ kid nm v rest r, iterProps env f rest = some r →
        iterProps env (f + 1) (Elem.methodDef kid nm v :: rest)
          = some (Elem.methodDef kid nm v :: r)) ∧
      (∀ arg rest exprs l u r,
        flattenE env (f + 1) arg = some exprs →
        iterSpread env f exprs = some (l, u) →
        iterProps env f rest = some r →
        iterProps env (f + 1) (Elem.spreadEl arg :: rest)
          = some (l ++ (if u then [Elem.spreadEl arg] else []) ++ r)) ∧
      (∀ elems rest l r u,
        iterProps env f elems = some l →
        iterSpread env f rest = some (r, u) →
        iterSpread env (f + 1) (Expr.obj elems :: rest) = some (l ++ r, u)) ∧
      (∀ e rest r u, isObjE e = false →
        iterSpread env f rest = some (r, u) →
        iterSpread env (f + 1) (e :: rest) = some (r, true)) ∧
      (∀ g exprs l u, iterSpread env g exprs = some (l, u) →
        (u = true ↔ ∃ e ∈ exprs, isObjE e = false)) := by
  refine ⟨?_, ?_, ?_, ?_, ?_, ?_⟩
  · intro kid nm v rest r h
    rw [iterProps, h]
    intro arg hh; exact Elem.noConfusion hh
  · intro kid nm v rest r h
    rw [iterProps, h]
    intro arg hh; exact Elem.noConfusion hh
  · intro arg rest exprs l u r hflat hspread hrest
    rw [iterProps, hflat]
    show (match iterSpread env f exprs, iterProps env f rest with
          | some (l, u), some r =>
            some (l ++ (if u then [Elem.spreadEl arg] else []) ++ r)
          | _, _ => none) = _
    rw [hspread, hrest]
  · intro elems rest l r u h1 h2
    rw [iterSpread, h1, h2]
  · intro e rest r u he h2
    rw [iterSpread_cons_nonobj env f e rest he, h2]
  · intro g exprs l u h
    exact iterSpread_unknown_iff env exprs g l u h

/-- Witness for C7 at concrete inputs: a direct property, a method, a spread
whose flattening mixes one object shape and one opaque identifier (the spread
element itself is yielded after the object's properties), and the unknown
flag characterization on that flattening. -/
theorem c7_witness :
    iterProps envEmpty 3
        [Elem.property 1 (some "fixable") Expr.other]
      = some [Elem.property 1 (some "fixable") Expr.other] ∧
      iterProps envEmpty 3 [Elem.methodDef 2 (some "m") Expr.other]
        = some [Elem.methodDef 2 (some "m") Expr.other] ∧
      iterProps envEmpty 4
          [Elem.spreadEl
            (Expr.cond Expr.other
              (Expr.obj [Elem.property 4 (some "p") Expr.other])
              (Expr.ident "opaque"))]
        = some ([Elem.property 4 (some "p") Expr.other] ++
            [Elem.spreadEl
              (Expr.cond Expr.other
                (Expr.obj [Elem.property 4 (some "p") Expr.other])
                (Expr.ident "opaque"))] ++ []) ∧
      (true = true ↔
        ∃ e ∈ [Expr.obj [Elem.property 4 (some "p") Expr.other], Expr.ident "opaque"],
          isObjE e = false) := by
  refine ⟨?_, ?_, ?_, ?_⟩
  · exact (c7_iterate_cases envEmpty 2).1 1 (some "fixable") Expr.other [] [] rfl
  · exact (c7_iterate_cases envEmpty 2).2.1 2 (some "m") Expr.other [] [] rfl
  · have h := (c7_iterate_cases envEmpty 3).2.2.1
      (Expr.cond Expr.other
        (Expr.obj [Elem.property 4 (some "p") Expr.other])
        (Expr.ident "opaque"))
      []
      [Expr.obj [Elem.property 4 (some "p") Expr.other], Expr.ident "opaque"]
      [Elem.property 4 (some "p") Expr.other] true [] rfl rfl rfl
    simpa using h
  · exact (c7_iterate_cases envEmpty 2).2.2.2.2.2 3
      [Expr.obj [Elem.property 4 (some "p") Expr.other], Expr.ident "opaque"]
      [Elem.property 4 (some "p") Expr.other] true rfl

/-- Filtering by a message predicate that rejects `m` empties a
`reports`-style map over key nodes. -/
theorem filter_msg_map_keyNode (p : MessageId → Bool) (m : MessageId)
    (hm : p m = false) (l : List Nat) :
    List.filter (fun d => p d.messageId)
        (l.map (fun k => (⟨Anchor.keyNode k, m⟩ : Diagnostic))) = [] := by
  induction l with
  | nil => rfl
  | cons x xs ih => simp [List.filter_cons, hm, ih]

/-- Filtering by a message predicate that accepts `m` keeps a
`reports`-style map over key nodes intact. -/
theorem filter_msg_map_keyNode_self (p : MessageId → Bool) (m : MessageId)
    (hm : p m = true) (l : List Nat) :
    List.filter (fun d => p d.messageId)
        (l.map (fun k => (⟨Anchor.keyNode k, m⟩ : Diagnostic)))
      = l.map (fun k => (⟨Anchor.keyNode k, m⟩ : Diagnostic)) := by
  induction l with
  | nil => rfl
  | cons x xs ih => simp [List.filter_cons, hm, ih]

/-- With a shape-unknown report call recorded, the `fix`-direction checks
emit no negative-direction diagnostic. -/
theorem fixChecks_unknown_no_neg (rep : ReportFindings) (scan : MetaScan)
    (h : rep.hasUnknown = true) :
    List.filter (fun d => isNegativeMsg d.messageId) (fixChecks rep scan) = [] := by
  unfold fixChecks
  cases hfe : rep.fixNodes.isEmpty
  · cases hs : scan.hasSpread
    · rcases hfp : scan.fixableProp with _ | ⟨kid, v⟩
      · simp [hfe, hs, hfp, isNegativeMsg]
      · by_cases hnu : isNullOrUndefinedE v
        · simp [hfe, hs, hfp, hnu, isNegativeMsg]
        · simp [hfe, hs, hfp, hnu]
    · simp [hfe, hs]
  · simp [hfe, h]

/-- With a shape-unknown report call recorded, the `suggest`-direction checks
emit no negative-direction diagnostic. -/
theorem suggestChecks_unknown_no_neg (rep : ReportFindings) (scan : MetaScan)
    (h : rep.hasUnknown = true) :
    List.filter (fun d => isNegativeMsg d.messageId) (suggestChecks rep scan) = [] := by
  unfold suggestChecks
  cases hfe : rep.suggestNodes.isEmpty
  · cases hs : scan.hasSpread
    · rcases hfp : scan.hasSuggestionsProp with _ | ⟨kid, v⟩
      · simp [hfe, hs, hfp, isNegativeMsg]
      · by_cases hnt : litValueNotTrue v
        · simp [hfe, hs, hfp, hnt, isNegativeMsg]
        · simp [hfe, hs, hfp, hnt]
    · simp [hfe, hs]
  · simp [hfe, h]

/-- With no observed `fix` site, the `fix`-direction checks emit no
positive-direction diagnostic, whatever `hasUnknown` is. -/
theorem fixChecks_empty_no_pos (rep : ReportFindings) (scan : MetaScan)
    (h : rep.fixNodes.isEmpty = true) :
    List.filter (fun d => isPositiveMsg d.messageId) (fixChecks rep scan) = [] := by
  unfold fixChecks
  cases hu : rep.hasUnknown
  · rcases hfp : scan.fixableProp with _ | ⟨kid, v⟩
    · simp [h, hu, hfp]
    · by_cases hsl : isStringLit v
      · simp [h, hu, hfp, hsl, List.filter_cons, isPositiveMsg]
      · simp [h, hu, hfp, hsl]
  · simp [h, hu]

/-- With no observed `suggest` site, the `suggest`-direction checks emit no
positive-direction diagnostic, whatever `hasUnknown` is. -/
theorem suggestChecks_empty_no_pos (rep : ReportFindings) (scan : MetaScan)
    (h : rep.suggestNodes.isEmpty = true) :
    List.filter (fun d => isPositiveMsg d.messageId) (suggestChecks rep scan) = [] := by
  unfold suggestChecks
  cases hu : rep.hasUnknown
  · rcases hfp : scan.hasSuggestionsProp with _ | ⟨kid, v⟩
    · simp [h, hu, hfp]
    · by_cases hsl : litValueIsTrue v
      · simp [h, hu, hfp, hsl, List.filter_cons, isPositiveMsg]
      · simp [h, hu, hfp, hsl]
  · simp [h, hu]

/-- The positive-direction output of the `fix` checks does not depend on
`hasUnknown`. -/
theorem fixChecks_pos_indep (rep : ReportFindings) (scan : MetaScan) (b : Bool) :
    List.filter (fun d => isPositiveMsg d.messageId)
        (fixChecks { rep with hasUnknown := b } scan)
      = List.filter (fun d => isPositiveMsg d.messageId) (fixChecks rep scan) := by
  cases hfe : rep.fixNodes.isEmpty
  · unfold fixChecks
    simp [hfe]
  · rw [fixChecks_empty_no_pos _ _ (by simpa using hfe),
      fixChecks_empty_no_pos _ _ hfe]

/-- The positive-direction output of the `suggest` checks does not depend on
`hasUnknown`. -/
theorem suggestChecks_pos_indep (rep : ReportFindings) (scan : MetaScan) (b : Bool) :
    List.filter (fun d => isPositiveMsg d.messageId)
        (suggestChecks { rep with hasUnknown := b } scan)
      = List.filter (fun d => isPositiveMsg d.messageId) (suggestChecks rep scan) := by
  cases hfe : rep.suggestNodes.isEmpty
  · unfold suggestChecks
    simp [hfe]
  · rw [suggestChecks_empty_no_pos _ _ (by simpa using hfe),
      suggestChecks_empty_no_pos _ _ hfe]

/-- C2: a shape-unknown report call suppresses only the negative-direction
checks — with `hasUnknown` set the reconciliation emits no
`shouldNotBeFixable` / `shouldNotBeSuggestable` diagnostic — while the
positive-direction diagnostics (`shouldBeFixable` / `shouldBeSuggestable`)
are unaffected by the value of `hasUnknown`. -/
theorem c2_unknown_suppresses_only_negative (rep : ReportFindings) (scan : MetaScan) :
    List.filter (fun d => isNegativeMsg d.messageId)
        (checkMeta { rep with hasUnknown := true } scan) = [] ∧
      ∀ b₁ b₂ : Bool,
        List.filter (fun d => isPositiveMsg d.messageId)
            (checkMeta { rep with hasUnknown := b₁ } scan)
          = List.filter (fun d => isPositiveMsg d.messageId)
              (checkMeta { rep with hasUnknown := b₂ } scan) := by
  constructor
  · unfold checkMeta
    rw [List.filter_append]
    rw [fixChecks_unknown_no_neg _ _ rfl, suggestChecks_unknown_no_neg _ _ rfl]
    rfl
  · intro b₁ b₂
    unfold checkMeta
    rw [List.filter_append, List.filter_append]
    rw [fixChecks_pos_indep rep scan b₁, suggestChecks_pos_indep rep scan b₁,
      fixChecks_pos_indep rep scan b₂, suggestChecks_pos_indep rep scan b₂]

/-- Every diagnostic emitted by the `suggest`-direction checks carries a
`suggest`-direction message identifier. -/
theorem suggestChecks_msgs (rep : ReportFindings) (scan : MetaScan) :
    ∀ d ∈ suggestChecks rep scan,
      d.messageId = MessageId.shouldBeSuggestable ∨
        d.messageId = MessageId.shouldNotBeSuggestable := by
  intro d hd
  unfold suggestChecks at hd
  rcases hfp : scan.hasSuggestionsProp with _ | ⟨kid, v⟩ <;>
    rw [hfp] at hd <;>
    cases hfe : rep.suggestNodes.isEmpty <;>
    rw [hfe] at hd <;>
    cases hu : rep.hasUnknown <;>
    rw [hu] at hd <;>
    cases hs : scan.hasSpread <;>
    simp [hs] at hd <;>
    first
      | (rcases hd with ⟨k, _, rfl⟩; left; rfl)
      | (rcases hd with ⟨_, k, _, rfl⟩; left; rfl)
      | (obtain rfl := hd.2; right; rfl)

/-- C3: with at least one report site passing `fix`, no unresolved spread in
`meta`, and `fixable` either absent or valued `null` / `undefined`, the
checker reports one `shouldBeFixable` diagnostic per offending site, anchored
at that site's `fix` property key. -/
theorem c3_sites_should_be_fixable
    (env : Env) (f : Nat) (metaElems : List Elem) (cid : Nat)
    (rep : ReportFindings) (props : List Elem)
    (hfound : rep.found = true)
    (hfix : rep.fixNodes ≠ [])
    (hiter : iterProps env f metaElems = some props)
    (hspread : (scanMeta props).hasSpread = false)
    (hfp : (scanMeta props).fixableProp = none ∨
        ∃ kid v, (scanMeta props).fixableProp = some (kid, v) ∧
          isNullOrUndefinedE v = true) :
    (programExit env f (some ⟨metaElems, cid, rep⟩)).map
        (List.filter (fun d => d.messageId = MessageId.shouldBeFixable))
      = some (rep.fixNodes.map
          (fun k => ⟨Anchor.keyNode k, MessageId.shouldBeFixable⟩)) := by
  have hfe : rep.fixNodes.isEmpty = false := by
    cases hx : rep.fixNodes
    · exact absurd hx hfix
    · rfl
  unfold programExit
  simp only [hfound, Bool.true_eq_false, if_false]
  rw [hiter]
  simp only [Option.map_some']
  unfold checkMeta
  rw [List.filter_append]
  have hsug : List.filter (fun d => decide (d.messageId = MessageId.shouldBeFixable))
      (suggestChecks rep (scanMeta props)) = [] := by
    refine List.filter_eq_nil_iff.mpr ?_
    intro d hd
    rcases suggestChecks_msgs rep (scanMeta props) d hd with h | h <;> simp [h]
  rw [hsug, List.append_nil]
  unfold fixChecks
  rcases hfp with hnone | ⟨kid, v, hsome, hnu⟩
  · simp only [hfe, hspread, hnone]
    simp [filter_msg_map_keyNode_self
      (fun m => decide (m = MessageId.shouldBeFixable)) MessageId.shouldBeFixable rfl]
  · simp only [hfe, hspread, hsome, hnu]
    simp [filter_msg_map_keyNode_self
      (fun m => decide (m = MessageId.shouldBeFixable)) MessageId.shouldBeFixable rfl, hnu]

/-- Witness for C3: an empty `meta` with one observed `fix` site yields
exactly the one `shouldBeFixable` diagnostic anchored at that site's `fix`
key. -/
theorem c3_witness :
    (⟨[], [11], false, true⟩ : ReportFindings).fixNodes ≠ [] ∧
      iterProps envEmpty 1 [] = some [] ∧
      (scanMeta []).hasSpread = false ∧
      (scanMeta []).fixableProp = none ∧
      (programExit envEmpty 1 (some ⟨[], 0, ⟨[], [11], false, true⟩⟩)).map
          (List.filter (fun d => d.messageId = MessageId.shouldBeFixable))
        = some [⟨Anchor.keyNode 11, MessageId.shouldBeFixable⟩] := by
  refine ⟨by decide, rfl, rfl, rfl, ?_⟩
  exact c3_sites_should_be_fixable envEmpty 1 [] 0 ⟨[], [11], false, true⟩ []
    rfl (by decide) rfl rfl (Or.inl rfl)

/-- C1 as stated fails on the code: with `meta: { fixable: 'code' }`, zero
`fix` sites, no shape-unknown call, and *no report call found at all*
(`found = false`), `Program:exit` returns before any check and reports
nothing — not one `shouldNotBeFixable` diagnostic. -/
theorem c1_counterexample :
    (scanMeta [Elem.property 7 (some "fixable") (Expr.lit (Lit.str "code"))]).fixableProp
        = some (7, Expr.lit (Lit.str "code")) ∧
      iterProps envEmpty 2 [Elem.property 7 (some "fixable") (Expr.lit (Lit.str "code"))]
        = some [Elem.property 7 (some "fixable") (Expr.lit (Lit.str "code"))] ∧
      programExit envEmpty 2
          (some ⟨[Elem.property 7 (some "fixable") (Expr.lit (Lit.str "code"))], 0,
                 ⟨[], [], false, false⟩⟩)
        = some [] :=
  ⟨rfl, rfl, rfl⟩

/-- C1 (amended): provided at least one matching report call was found
(`found = true`), if zero report sites pass `fix`, no report call was
shape-unknown, and `meta` declares `fixable` as a string literal, the checker
reports exactly one `shouldNotBeFixable` diagnostic anchored on the `fixable`
property.  (Without a found report call, `Program:exit` returns early and
reports nothing.) -/
theorem c1_not_fixable_needs_found
    (env : Env) (f : Nat) (metaElems : List Elem) (cid : Nat)
    (rep : ReportFindings) (props : List Elem) (kid : Nat) (s : String)
    (hfound : rep.found = true)
    (hfix : rep.fixNodes = [])
    (hunk : rep.hasUnknown = false)
    (hiter : iterProps env f metaElems = some props)
    (hfp : (scanMeta props).fixableProp = some (kid, Expr.lit (Lit.str s))) :
    (programExit env f (some ⟨metaElems, cid, rep⟩)).map
        (List.filter (fun d => d.messageId = MessageId.shouldNotBeFixable))
      = some [⟨Anchor.propNode kid, MessageId.shouldNotBeFixable⟩] := by
  have hfe : rep.fixNodes.isEmpty = true := by rw [hfix]; rfl
  unfold programExit
  simp only [hfound, Bool.true_eq_false, if_false]
  rw [hiter]
  simp only [Option.map_some']
  unfold checkMeta
  rw [List.filter_append]
  have hsug : List.filter (fun d => decide (d.messageId = MessageId.shouldNotBeFixable))
      (suggestChecks rep (scanMeta props)) = [] := by
    refine List.filter_eq_nil_iff.mpr ?_
    intro d hd
    rcases suggestChecks_msgs rep (scanMeta props) d hd with h | h <;> simp [h]
  rw [hsug, List.append_nil]
  unfold fixChecks
  simp [hfe, hunk, hfp, isStringLit]

/-- Witness for the amended C1: the counterexample's rule object with
`found = true` produces exactly the one `shouldNotBeFixable` diagnostic on
the `fixable` property. -/
theorem c1_witness :
    (⟨[], [], false, true⟩ : ReportFindings).found = true ∧
      (programExit envEmpty 2
            (some ⟨[Elem.property 7 (some "fixable") (Expr.lit (Lit.str "code"))], 0,
                   ⟨[], [], false, true⟩⟩)).map
          (List.filter (fun d => d.messageId = MessageId.shouldNotBeFixable))
        = some [⟨Anchor.propNode 7, MessageId.shouldNotBeFixable⟩] :=
  ⟨rfl,
    c1_not_fixable_needs_found envEmpty 2
      [Elem.property 7 (some "fixable") (Expr.lit (Lit.str "code"))] 0
      ⟨[], [], false, true⟩
      [Elem.property 7 (some "fixable") (Expr.lit (Lit.str "code"))] 7 "code"
      rfl rfl rfl rfl rfl⟩

/-- Fuel monotonicity of the expression flattener: a completed run is stable
under additional fuel. -/
theorem mono_flat (env : Env) :
    ∀ f f' e l, f ≤ f' → flattenE env f e = some l → flattenE env f' e = some l := by
  intro f
  induction f with
  | zero =>
    intro f' e l _ h
    rw [flattenE] at h
    exact Option.noConfusion h
  | succ f ih =>
    intro f' e l hle h
    match f', hle with
    | f'' + 1, hle =>
      have hle' : f ≤ f'' := Nat.le_of_succ_le_succ hle
      match e with
      | Expr.ident n =>
        rw [flattenE] at h ⊢
        match hr : resolveConst env n with
        | some init =>
          rw [hr] at h
          exact ih f'' init l hle' h
        | none =>
          rw [hr] at h
          exact h
      | Expr.cond c t e2 =>
        rw [flattenE] at h ⊢
        match h1 : flattenE env f t, h2 : flattenE env f e2 with
        | some l1, some l2 =>
          rw [h1, h2] at h
          rw [ih f'' t l1 hle' h1, ih f'' e2 l2 hle' h2]
          exact h
        | some l1, none =>
          rw [h1, h2] at h
          exact Option.noConfusion h
        | none, _ =>
          rw [h1] at h
          exact Option.noConfusion h
      | Expr.obj elems => exact h
      | Expr.lit v => exact h
      | Expr.func ps => exact h
      | Expr.other => exact h

/-- On the scope of `const a = a;` the flattener never completes: every fuel
budget is exhausted. -/
theorem flattenE_envSelf_none : ∀ f, flattenE envSelf f (Expr.ident "a") = none := by
  intro f
  induction f with
  | zero => rfl
  | succ f ih =>
    rw [flattenE]
    rw [show resolveConst envSelf "a" = some (Expr.ident "a") from rfl]
    exact ih

/-- C4 as stated fails on the code: the flattener does not terminate on every
input.  On the legal single-declarator constant program `const a = a;` (which
the recursion guard of lines 79–88 does not exclude) flattening the
identifier `a` never completes, for any fuel. -/
theorem c4_counterexample :
    ¬ ∃ f l, flattenE envSelf f (Expr.ident "a") = some l := by
  rintro ⟨f, l, h⟩
  rw [flattenE_envSelf_none f] at h
  exact Option.noConfusion h

/-- The identifier bound is the least upper bound of `μ m + 1` over the
list. -/
theorem listBound_le_iff (μ : String → Nat) (l : List String) (k : Nat) :
    listBound μ l ≤ k ↔ ∀ m ∈ l, μ m + 1 ≤ k := by
  induction l with
  | nil => simp [listBound]
  | cons x xs ih =>
    have hc : listBound μ (x :: xs) = max (μ x + 1) (listBound μ xs) := rfl
    rw [hc, Nat.max_le, ih]
    simp [List.forall_mem_cons]

/-- The identifier bound distributes over append as a maximum. -/
theorem listBound_append (μ : String → Nat) (l1 l2 : List String) :
    listBound μ (l1 ++ l2) = max (listBound μ l1) (listBound μ l2) := by
  induction l1 with
  | nil => simp [listBound]
  | cons x xs ih =>
    have hc : listBound μ ((x :: xs) ++ l2) = max (μ x + 1) (listBound μ (xs ++ l2)) := rfl
    have hc2 : listBound μ (x :: xs) = max (μ x + 1) (listBound μ xs) := rfl
    rw [hc, hc2, ih, Nat.max_assoc]

/-- Under an acyclic resolution relation, the flattener completes on every
expression with some fuel. -/
theorem flatten_total (env : Env) (μ : String → Nat) (hA : AcyclicRes env μ) :
    ∀ k e, listBound μ (identsOf e) ≤ k → ∃ f l, flattenE env f e = some l := by
  intro k
  induction k using Nat.strong_induction_on with
  | _ k IHk =>
    suffices hsz : ∀ n e, sizeOf e ≤ n → listBound μ (identsOf e) ≤ k →
        ∃ f l, flattenE env f e = some l by
      intro e hb
      exact hsz (sizeOf e) e le_rfl hb
    intro n
    induction n with
    | zero =>
      intro e hs hb
      exfalso
      cases e <;> simp at hs
    | succ n IHn =>
      intro e hs hb
      match e with
      | Expr.ident nm =>
        match hr : resolveConst env nm with
        | none => exact ⟨1, [Expr.ident nm], by rw [flattenE, hr]⟩
        | some init =>
          have hb' : listBound μ (identsOf init) ≤ μ nm := by
            rw [listBound_le_iff]
            intro m hm
            exact hA nm init hr m hm
          have hlt : μ nm < k := by
            have h1 := (listBound_le_iff μ (identsOf (Expr.ident nm)) k).mp hb
            have h2 : μ nm + 1 ≤ k := h1 nm (by simp [identsOf])
            omega
          obtain ⟨f, l, hf⟩ := IHk (μ nm) hlt init hb'
          exact ⟨f + 1, l, by rw [flattenE, hr]; exact hf⟩
      | Expr.cond c t e2 =>
        have hit : identsOf (Expr.cond c t e2) = identsOf t ++ identsOf e2 := rfl
        have hbt : listBound μ (identsOf t) ≤ k := by
          rw [hit, listBound_append] at hb
          omega
        have hbe : listBound μ (identsOf e2) ≤ k := by
          rw [hit, listBound_append] at hb
          omega
        have hst : sizeOf t ≤ n := by
          simp at hs
          omega
        have hse : sizeOf e2 ≤ n := by
          simp at hs
          omega
        obtain ⟨f1, l1, h1⟩ := IHn t hst hbt
        obtain ⟨f2, l2, h2⟩ := IHn e2 hse hbe
        refine ⟨max f1 f2 + 1, l1 ++ l2, ?_⟩
        rw [flattenE,
          mono_flat env f1 (max f1 f2) t l1 (Nat.le_max_left _ _) h1,
          mono_flat env f2 (max f1 f2) e2 l2 (Nat.le_max_right _ _) h2]
      | Expr.obj elems => exact ⟨1, [Expr.obj elems], rfl⟩
      | Expr.lit v => exact ⟨1, [Expr.lit v], rfl⟩
      | Expr.func ps => exact ⟨1, [Expr.func ps], rfl⟩
      | Expr.other => exact ⟨1, [Expr.other], rfl⟩

/-- Every shape yielded by a completed flattening either is no larger than
the input (with no larger identifier bound) or has a strictly smaller
identifier bound (it came through at least one constant resolution). -/
theorem flatten_sub (env : Env) (μ : String → Nat) (hA : AcyclicRes env μ) :
    ∀ f e l, flattenE env f e = some l → ∀ e' ∈ l,
      listBound μ (identsOf e') ≤ listBound μ (identsOf e) ∧
        (sizeOf e' ≤ sizeOf e ∨
          listBound μ (identsOf e') < listBound μ (identsOf e)) := by
  intro f
  induction f with
  | zero =>
    intro e l h
    rw [flattenE] at h
    exact absurd h (by simp)
  | succ f ih =>
    intro e l h e' he'
    match e with
    | Expr.ident nm =>
      rw [flattenE] at h
      match hr : resolveConst env nm with
      | some init =>
        rw [hr] at h
        have hsub := ih init l h e' he'
        have hbound : listBound μ (identsOf init) ≤ μ nm := by
          rw [listBound_le_iff]
          intro m hm
          exact hA nm init hr m hm
        have hlb : listBound μ (identsOf (Expr.ident nm)) = μ nm + 1 := by
          simp [identsOf, listBound]
        have hle : listBound μ (identsOf e') ≤ μ nm :=
          le_trans hsub.1 hbound
        refine ⟨?_, Or.inr ?_⟩
        · rw [hlb]; omega
        · rw [hlb]; omega
      | none =>
        rw [hr] at h
        have hl : [Expr.ident nm] = l := by injection h
        subst hl
        have : e' = Expr.ident nm := by simpa using he'
        subst this
        exact ⟨le_rfl, Or.inl le_rfl⟩
    | Expr.cond c t e2 =>
      rw [flattenE] at h
      match h1 : flattenE env f t, h2 : flattenE env f e2 with
      | some l1, some l2 =>
        rw [h1, h2] at h
        have hl : l1 ++ l2 = l := by injection h
        subst hl
        have hit : identsOf (Expr.cond c t e2) = identsOf t ++ identsOf e2 := rfl
        rcases List.mem_append.mp he' with hm | hm
        · have hsub := ih t l1 h1 e' hm
          have hle : listBound μ (identsOf t)
              ≤ listBound μ (identsOf (Expr.cond c t e2)) := by
            rw [hit, listBound_append]
            exact Nat.le_max_left _ _
          refine ⟨le_trans hsub.1 hle, ?_⟩
          rcases hsub.2 with hsz | hlt
          · left
            have : sizeOf t ≤ sizeOf (Expr.cond c t e2) := by simp; omega
            omega
          · right
            omega
        · have hsub := ih e2 l2 h2 e' hm
          have hle : listBound μ (identsOf e2)
              ≤ listBound μ (identsOf (Expr.cond c t e2)) := by
            rw [hit, listBound_append]
            exact Nat.le_max_right _ _
          refine ⟨le_trans hsub.1 hle, ?_⟩
          rcases hsub.2 with hsz | hlt
          · left
            have : sizeOf e2 ≤ sizeOf (Expr.cond c t e2) := by simp
            omega
          · right
            omega
      | some l1, none =>
        rw [h1, h2] at h
        exact absurd h (by simp)
      | none, _ =>
        rw [h1] at h
        exact absurd h (by simp)
    | Expr.obj elems =>
      have hl : [Expr.obj elems] = l := by injection h
      subst hl
      have : e' = Expr.obj elems := by simpa using he'
      subst this
      exact ⟨le_rfl, Or.inl le_rfl⟩
    | Expr.lit v =>
      have hl : [Expr.lit v] = l := by injection h
      subst hl
      have : e' = Expr.lit v := by simpa using he'
      subst this
      exact ⟨le_rfl, Or.inl le_rfl⟩
    | Expr.func ps =>
      have hl : [Expr.func ps] = l := by injection h
      subst hl
      have : e' = Expr.func ps := by simpa using he'
      subst this
      exact ⟨le_rfl, Or.inl le_rfl⟩
    | Expr.other =>
      have hl : [Expr.other] = l := by injection h
      subst hl
      have : e' = Expr.other := by simpa using he'
      subst this
      exact ⟨le_rfl, Or.inl le_rfl⟩

/-- Unfolding equation for the walker at a `Property` head. -/
theorem iterProps_cons_property (env : Env) (g kid : Nat) (nm : Option String)
    (v : Expr) (rest : List Elem) :
    iterProps env (g + 1) (Elem.property kid nm v :: rest)
      = match iterProps env g rest with
        | some r => some (Elem.property kid nm v :: r)
        | none => none := by
  rw [iterProps]
  intro arg hh; exact Elem.noConfusion hh

/-- Unfolding equation for the walker at a `MethodDefinition` head. -/
theorem iterProps_cons_methodDef (env : Env) (g kid : Nat) (nm : Option String)
    (v : Expr) (rest : List Elem) :
    iterProps env (g + 1) (Elem.methodDef kid nm v :: rest)
      = match iterProps env g rest with
        | some r => some (Elem.methodDef kid nm v :: r)
        | none => none := by
  rw [iterProps]
  intro arg hh; exact Elem.noConfusion hh

/-- Fuel monotonicity of the object-shape walker and its spread loop. -/
theorem mono_iter (env : Env) :
    ∀ f,
      (∀ f' elems r, f ≤ f' → iterProps env f elems = some r →
        iterProps env f' elems = some r) ∧
      (∀ f' exprs lu, f ≤ f' → iterSpread env f exprs = some lu →
        iterSpread env f' exprs = some lu) := by
  intro f
  induction f with
  | zero =>
    constructor
    · intro f' elems r _ h
      rw [iterProps] at h
      exact absurd h (by simp)
    · intro f' exprs lu _ h
      rw [iterSpread] at h
      exact absurd h (by simp)
  | succ f ih =>
    constructor
    · intro f' elems r hle h
      match f', hle with
      | f'' + 1, hle =>
        have hle' : f ≤ f'' := Nat.le_of_succ_le_succ hle
        match elems with
        | [] => exact h
        | Elem.spreadEl arg :: rest =>
          rw [iterProps] at h ⊢
          match hfl : flattenE env (f + 1) arg with
          | none =>
            rw [hfl] at h
            exact absurd h (by simp)
          | some exprs =>
            rw [hfl] at h
            rw [mono_flat env (f + 1) (f'' + 1) arg exprs (by omega) hfl]
            replace h : (match iterSpread env f exprs, iterProps env f rest with
              | some (l, u), some rr =>
                some (l ++ (if u then [Elem.spreadEl arg] else []) ++ rr)
              | _, _ => none) = some r := h
            show (match iterSpread env f'' exprs, iterProps env f'' rest with
              | some (l, u), some rr =>
                some (l ++ (if u then [Elem.spreadEl arg] else []) ++ rr)
              | _, _ => none) = some r
            match hs : iterSpread env f exprs, hp : iterProps env f rest with
            | some (l, u), some rr =>
              rw [hs, hp] at h
              rw [ih.2 f'' exprs (l, u) hle' hs, ih.1 f'' rest rr hle' hp]
              exact h
            | some (l, u), none =>
              rw [hs, hp] at h
              exact absurd h (by simp)
            | none, _ =>
              rw [hs] at h
              exact absurd h (by simp)
        | Elem.property kid nm v :: rest =>
          rw [iterProps_cons_property] at h ⊢
          match hp : iterProps env f rest with
          | some rr =>
            rw [hp] at h
            rw [ih.1 f'' rest rr hle' hp]
            exact h
          | none =>
            rw [hp] at h
            exact absurd h (by simp)
        | Elem.methodDef kid nm v :: rest =>
          rw [iterProps_cons_methodDef] at h ⊢
          match hp : iterProps env f rest with
          | some rr =>
            rw [hp] at h
            rw [ih.1 f'' rest rr hle' hp]
            exact h
          | none =>
            rw [hp] at h
            exact absurd h (by simp)
    · intro f' exprs lu hle h
      match f', hle with
      | f'' + 1, hle =>
        have hle' : f ≤ f'' := Nat.le_of_succ_le_succ hle
        match exprs with
        | [] => exact h
        | Expr.obj elems :: rest =>
          rw [iterSpread] at h ⊢
          match h1 : iterProps env f elems, h2 : iterSpread env f rest with
          | some l, some (rr, u) =>
            rw [h1, h2] at h
            rw [ih.1 f'' elems l hle' h1, ih.2 f'' rest (rr, u) hle' h2]
            exact h
          | some l, none =>
            rw [h1, h2] at h
            exact absurd h (by simp)
          | none, _ =>
            rw [h1] at h
            exact absurd h (by simp)
        | Expr.ident nm :: rest =>
          rw [iterSpread_cons_nonobj env f (Expr.ident nm) rest rfl] at h
          rw [iterSpread_cons_nonobj env f'' (Expr.ident nm) rest rfl]
          match h2 : iterSpread env f rest with
          | some (rr, u) =>
            rw [h2] at h
            rw [ih.2 f'' rest (rr, u) hle' h2]
            exact h
          | none =>
            rw [h2] at h
            exact absurd h (by simp)
        | Expr.cond a b c :: rest =>
          rw [iterSpread_cons_nonobj env f (Expr.cond a b c) rest rfl] at h
          rw [iterSpread_cons_nonobj env f'' (Expr.cond a b c) rest rfl]
          match h2 : iterSpread env f rest with
          | some (rr, u) =>
            rw [h2] at h
            rw [ih.2 f'' rest (rr, u) hle' h2]
            exact h
          | none =>
            rw [h2] at h
            exact absurd h (by simp)
        | Expr.lit v :: rest =>
          rw [iterSpread_cons_nonobj env f (Expr.lit v) rest rfl] at h
          rw [iterSpread_cons_nonobj env f'' (Expr.lit v) rest rfl]
          match h2 : iterSpread env f rest with
          | some (rr, u) =>
            rw [h2] at h
            rw [ih.2 f'' rest (rr, u) hle' h2]
            exact h
          | none =>
            rw [h2] at h
            exact absurd h (by simp)
        | Expr.func ps :: rest =>
          rw [iterSpread_cons_nonobj env f (Expr.func ps) rest rfl] at h
          rw [iterSpread_cons_nonobj env f'' (Expr.func ps) rest rfl]
          match h2 : iterSpread env f rest with
          | some (rr, u) =>
            rw [h2] at h
            rw [ih.2 f'' rest (rr, u) hle' h2]
            exact h
          | none =>
            rw [h2] at h
            exact absurd h (by simp)
        | Expr.other :: rest =>
          rw [iterSpread_cons_nonobj env f (Expr.other) rest rfl] at h
          rw [iterSpread_cons_nonobj env f'' (Expr.other) rest rfl]
          match h2 : iterSpread env f rest with
          | some (rr, u) =>
            rw [h2] at h
            rw [ih.2 f'' rest (rr, u) hle' h2]
            exact h
          | none =>
            rw [h2] at h
            exact absurd h (by simp)

/-- Under an acyclic resolution relation, the object-shape walker completes
on every element list with some fuel. -/
theorem iter_total (env : Env) (μ : String → Nat) (hA : AcyclicRes env μ) :
    ∀ k n elems, listBound μ (identsOfElems elems) ≤ k → sizeOf elems ≤ n →
      ∃ f ps, iterProps env f elems = some ps := by
  intro k
  induction k using Nat.strong_induction_on with
  | _ k IHk =>
    intro n
    induction n with
    | zero =>
      intro elems hb hs
      exfalso
      cases elems with
      | nil =>
        have h1 : sizeOf ([] : List Elem) = 1 := by simp
        omega
      | cons a l =>
        have h1 : sizeOf (a :: l) = 1 + sizeOf a + sizeOf l := by simp
        omega
    | succ n IHn =>
      intro elems hb hs
      match elems with
      | [] => exact ⟨1, [], rfl⟩
      | Elem.property kid nm v :: rest =>
        have hbr : listBound μ (identsOfElems rest) ≤ k := hb
        have hsr : sizeOf rest ≤ n := by
          have h1 : sizeOf (Elem.property kid nm v :: rest)
              = 1 + sizeOf (Elem.property kid nm v) + sizeOf rest := by simp
          omega
        obtain ⟨f, ps, hf⟩ := IHn rest hbr hsr
        exact ⟨f + 1, Elem.property kid nm v :: ps,
          by rw [iterProps_cons_property, hf]⟩
      | Elem.methodDef kid nm v :: rest =>
        have hbr : listBound μ (identsOfElems rest) ≤ k := hb
        have hsr : sizeOf rest ≤ n := by
          have h1 : sizeOf (Elem.methodDef kid nm v :: rest)
              = 1 + sizeOf (Elem.methodDef kid nm v) + sizeOf rest := by simp
          omega
        obtain ⟨f, ps, hf⟩ := IHn rest hbr hsr
        exact ⟨f + 1, Elem.methodDef kid nm v :: ps,
          by rw [iterProps_cons_methodDef, hf]⟩
      | Elem.spreadEl arg :: rest =>
        have hia : identsOfElems (Elem.spreadEl arg :: rest)
            = identsOf arg ++ identsOfElems rest := rfl
        have hba : listBound μ (identsOf arg) ≤ k := by
          rw [hia, listBound_append] at hb
          omega
        have hbr : listBound μ (identsOfElems rest) ≤ k := by
          rw [hia, listBound_append] at hb
          omega
        have hsz1 : sizeOf (Elem.spreadEl arg :: rest)
            = 1 + sizeOf (Elem.spreadEl arg) + sizeOf rest := by simp
        have hsz2 : sizeOf (Elem.spreadEl arg) = 1 + sizeOf arg := by simp
        have hsr : sizeOf rest ≤ n := by omega
        obtain ⟨f0, exprs, hfl⟩ := flatten_total env μ hA k arg hba
        have hmem : ∀ e' ∈ exprs,
            listBound μ (identsOf e') ≤ listBound μ (identsOf arg) ∧
              (sizeOf e' ≤ sizeOf arg ∨
                listBound μ (identsOf e') < listBound μ (identsOf arg)) :=
          flatten_sub env μ hA f0 arg exprs hfl
        have hTS : ∃ fs lr u, iterSpread env fs exprs = some (lr, u) := by
          clear hfl
          revert hmem
          induction exprs with
          | nil => exact fun _ => ⟨1, [], false, rfl⟩
          | cons e0 rest2 ihe =>
            intro hmem
            have hmem0 := hmem e0 (List.mem_cons_self e0 rest2)
            obtain ⟨fs, lrest, urest, hfs⟩ :=
              ihe (fun e' he' => hmem e' (List.mem_cons_of_mem e0 he'))
            match e0, hmem0 with
            | Expr.obj elems2, hmem0 =>
              have hkey : identsOf (Expr.obj elems2) = identsOfElems elems2 := rfl
              have hTP : ∃ fp ps2, iterProps env fp elems2 = some ps2 := by
                rcases hmem0.2 with hszo | hlto
                · have h3 : sizeOf (Expr.obj elems2) = 1 + sizeOf elems2 := by simp
                  have h4 : sizeOf elems2 ≤ n := by omega
                  have h5 : listBound μ (identsOfElems elems2) ≤ k := by
                    rw [← hkey]
                    exact le_trans hmem0.1 hba
                  exact IHn elems2 h5 h4
                · have h5 : listBound μ (identsOfElems elems2) < k := by
                    rw [← hkey]
                    exact lt_of_lt_of_le hlto hba
                  exact IHk (listBound μ (identsOfElems elems2)) h5
                    (sizeOf elems2) elems2 le_rfl le_rfl
              obtain ⟨fp, ps2, hfp⟩ := hTP
              refine ⟨max fp fs + 1, ps2 ++ lrest, urest, ?_⟩
              rw [iterSpread]
              rw [(mono_iter env fp).1 (max fp fs) elems2 ps2
                  (Nat.le_max_left _ _) hfp,
                (mono_iter env fs).2 (max fp fs) rest2 (lrest, urest)
                  (Nat.le_max_right _ _) hfs]
            | Expr.ident nm2, _ =>
              exact ⟨fs + 1, lrest, true,
                by rw [iterSpread_cons_nonobj env fs (Expr.ident nm2) rest2 rfl, hfs]⟩
            | Expr.cond a b c, _ =>
              exact ⟨fs + 1, lrest, true,
                by rw [iterSpread_cons_nonobj env fs (Expr.cond a b c) rest2 rfl, hfs]⟩
            | Expr.lit v2, _ =>
              exact ⟨fs + 1, lrest, true,
                by rw [iterSpread_cons_nonobj env fs (Expr.lit v2) rest2 rfl, hfs]⟩
            | Expr.func ps2, _ =>
              exact ⟨fs + 1, lrest, true,
                by rw [iterSpread_cons_nonobj env fs (Expr.func ps2) rest2 rfl, hfs]⟩
            | Expr.other, _ =>
              exact ⟨fs + 1, lrest, true,
                by rw [iterSpread_cons_nonobj env fs Expr.other rest2 rfl, hfs]⟩
        obtain ⟨fs, lr, u, hfs⟩ := hTS
        obtain ⟨fr, psr, hfr⟩ := IHn rest hbr hsr
        refine ⟨max f0 (max fs fr) + 1,
          lr ++ (if u then [Elem.spreadEl arg] else []) ++ psr, ?_⟩
        rw [iterProps]
        rw [mono_flat env f0 (max f0 (max fs fr) + 1) arg exprs
          (le_trans (Nat.le_max_left _ _) (Nat.le_succ _)) hfl]
        show (match iterSpread env (max f0 (max fs fr)) exprs,
                iterProps env (max f0 (max fs fr)) rest with
              | some (l, u), some rr =>
                some (l ++ (if u then [Elem.spreadEl arg] else []) ++ rr)
              | _, _ => none)
            = some (lr ++ (if u then [Elem.spreadEl arg] else []) ++ psr)
        rw [(mono_iter env fs).2 (max f0 (max fs fr)) exprs (lr, u)
            (le_trans (Nat.le_max_left _ _) (Nat.le_max_right _ _)) hfs,
          (mono_iter env fr).1 (max f0 (max fs fr)) rest psr
            (le_trans (Nat.le_max_right _ _) (Nat.le_max_right _ _)) hfr]

/-- C4 (amended): when the constant-binding resolution relation is acyclic
(no resolution chain revisits a binding, witnessed by a strictly decreasing
measure), both the expression flattener and the object-shape walker terminate
on every input, reaching a result that is stable under any additional fuel.
The unguarded recursion does diverge on cyclic single-assignment chains such
as `const a = a;`. -/
theorem c4_flatten_walker_terminate_acyclic (env : Env) (μ : String → Nat)
    (hA : AcyclicRes env μ) :
    (∀ e, ∃ f l, flattenE env f e = some l ∧
        ∀ f', f ≤ f' → flattenE env f' e = some l) ∧
      ∀ elems, ∃ f ps, iterProps env f elems = some ps ∧
        ∀ f', f ≤ f' → iterProps env f' elems = some ps := by
  constructor
  · intro e
    obtain ⟨f, l, hf⟩ := flatten_total env μ hA (listBound μ (identsOf e)) e le_rfl
    exact ⟨f, l, hf, fun f' h' => mono_flat env f f' e l h' hf⟩
  · intro elems
    obtain ⟨f, ps, hf⟩ := iter_total env μ hA (listBound μ (identsOfElems elems))
      (sizeOf elems) elems le_rfl le_rfl
    exact ⟨f, ps, hf, fun f' h' => (mono_iter env f).1 f' elems ps h' hf⟩

/-- Witness for the amended C4 at the empty scope (trivially acyclic) and
concrete inputs for both the flattener and the walker. -/
theorem c4_witness :
    AcyclicRes envEmpty (fun _ => 0) ∧
      (∃ f l, flattenE envEmpty f (Expr.ident "z") = some l ∧
        ∀ f', f ≤ f' → flattenE envEmpty f' (Expr.ident "z") = some l) ∧
      ∃ f ps, iterProps envEmpty f [Elem.spreadEl (Expr.ident "z")] = some ps ∧
        ∀ f', f ≤ f' → iterProps envEmpty f' [Elem.spreadEl (Expr.ident "z")] = some ps := by
  have hA : AcyclicRes envEmpty (fun _ => 0) := by
    intro n e h
    simp [resolveConst, envEmpty] at h
  exact ⟨hA,
    (c4_flatten_walker_terminate_acyclic envEmpty (fun _ => 0) hA).1 (Expr.ident "z"),
    (c4_flatten_walker_terminate_acyclic envEmpty (fun _ => 0) hA).2
      [Elem.spreadEl (Expr.ident "z")]⟩
